import Mathlib

/-!
Verification development for the build-orchestration service (gemini_api).

The definitions below are shallow embeddings of the TypeScript routes and the
bash build script of the repository: pure functions over `List Char` / `String`
model the string processing, explicit state passing models the stateful parts
(subscriber registry, retry loop).  Filesystem and network effects are modelled
by explicit oracles/state so that every definition is executable.
-/

namespace GeminiApi

/-! ## JavaScript string primitives

Character-level models of the JS operations used by the routes
(`String.prototype.trim`, `split`, `includes`, `match`, `replace`,
`path.basename`).  `jsWS` is the `\s` character class restricted to the
ASCII whitespace characters (space, tab, newline, carriage return,
vertical tab, form feed); the build output never contains the exotic
Unicode whitespace JS additionally accepts. -/

def jsWS (c : Char) : Bool :=
  c = ' ' || c = '\t' || c = '\n' || c = '\r' || c = '\x0b' || c = '\x0c'

/-- `String.prototype.trim` on a character list: drop `\s` from both ends. -/
def jsTrimL (l : List Char) : List Char :=
  ((l.dropWhile jsWS).reverse.dropWhile jsWS).reverse

/-- Remove `p` from the front of `l`, or fail. -/
def stripPrefixL : List Char → List Char → Option (List Char)
  | [], l => some l
  | _ :: _, [] => none
  | p :: ps, c :: cs => if p = c then stripPrefixL ps cs else none

/-- `String.prototype.includes` (substring test). -/
def containsSubL (needle : List Char) : List Char → Bool
  | [] => needle.isEmpty
  | c :: t => needle.isPrefixOf (c :: t) || containsSubL needle t

/-- Node `path.posix.basename`: drop trailing slashes, keep the last segment. -/
def jsBasename (l : List Char) : List Char :=
  ((l.reverse.dropWhile (· == '/')).takeWhile (· != '/')).reverse

/-! ## The structured-diagnostic regex

`parseErrors` (route file of `/api/fix`) matches each trimmed line against
`/\[ERROR\]\s+([^:]+):\[(\d+)(?:,\d+)?\]\s+(.*)/`.  `matchERefAt` decides
whether a match of that pattern starts at the head of the list and returns
the three capture groups, reproducing the backtracking priorities of the JS
engine: `\s+` and `[^:]+` are greedy, `[^:]+` necessarily ends at the first
colon, and when the whitespace run extends to that colon the engine gives
the last whitespace character back to `[^:]+`.  `.` excludes line
terminators. -/

def matchERefAt (l : List Char) : Option (List Char × List Char × List Char) :=
  match stripPrefixL "[ERROR]".data l with
  | none => none
  | some t =>
    let w := t.takeWhile jsWS
    let rest := t.dropWhile jsWS
    if w.isEmpty then none
    else
      let g := rest.takeWhile (· != ':')
      let after := rest.dropWhile (· != ':')
      let g1? : Option (List Char) :=
        if g.isEmpty then
          if 2 ≤ w.length then some (w.drop (w.length - 1)) else none
        else some g
      match g1? with
      | none => none
      | some g1 =>
        match after with
        | ':' :: '[' :: r1 =>
          let ds := r1.takeWhile Char.isDigit
          let r2 := r1.dropWhile Char.isDigit
          if ds.isEmpty then none
          else
            let r3 := match r2 with
              | ',' :: r2' =>
                if (r2'.takeWhile Char.isDigit).isEmpty then r2
                else r2'.dropWhile Char.isDigit
              | _ => r2
            match r3 with
            | ']' :: r4 =>
              let r5 := r4.dropWhile jsWS
              if (r4.takeWhile jsWS).isEmpty then none
              else some (g1, ds, r5.takeWhile (fun c => !(c == '\n' || c == '\r')))
            | _ => none
        | _ => none

/-- `String.prototype.match` with a non-global regex: first (leftmost) match. -/
def findERef : List Char → Option (List Char × List Char × List Char)
  | [] => none
  | c :: t =>
    match matchERefAt (c :: t) with
    | some r => some r
    | none => findERef t

/-! ## `replace(/\[ERROR\]\s+|\[FATAL\]\s+/, '')`

`String.prototype.replace` with a non-global regex removes the leftmost
match only; the alternation is tried left to right at each position and
`\s+` greedily swallows all whitespace following the tag. -/

def stripTagAt (tag : List Char) (l : List Char) : Option (List Char) :=
  match stripPrefixL tag l with
  | none => none
  | some rest =>
    match rest with
    | r :: _ => if jsWS r then some (rest.dropWhile jsWS) else none
    | [] => none

def tryTags (tags : List (List Char)) (l : List Char) : Option (List Char) :=
  match tags with
  | [] => none
  | tag :: more =>
    match stripTagAt tag l with
    | some r => some r
    | none => tryTags more l

def replaceFirstTag (tags : List (List Char)) : List Char → List Char
  | [] => []
  | c :: t =>
    match tryTags tags (c :: t) with
    | some rest => rest
    | none => c :: replaceFirstTag tags t

/-! ## `parseErrors` (fix route)

Faithful embedding of `parseErrors` from the `/api/fix` route: split on
newline, trim, skip blank lines; structured diagnostics are filed under the
basename of the reported path; otherwise lines mentioning `pom.xml`, `POM`
or `maven` are filed under the key `pom.xml`; otherwise lines containing
`[ERROR]` or `[FATAL]` become general errors; anything else is dropped.
`fileErrors` is an insertion-ordered association list, matching JS object
key order. -/

structure ParseResult where
  fileErrors : List (String × List String)
  generalErrors : List String
  deriving Repr, DecidableEq

def addFileError : List (String × List String) → String → String →
    List (String × List String)
  | [], k, v => [(k, [v])]
  | (k', vs) :: rest, k, v =>
    if k' = k then (k', vs ++ [v]) :: rest
    else (k', vs) :: addFileError rest k v

/-- JS `split(sep)` for a one-character separator (always at least one piece). -/
def splitOnChar (sep : Char) : List Char → List (List Char)
  | [] => [[]]
  | c :: t =>
    if c = sep then [] :: splitOnChar sep t
    else
      match splitOnChar sep t with
      | [] => [[c]]
      | h :: r => (c :: h) :: r

def processLine (acc : ParseResult) (rawLine : List Char) : ParseResult :=
  let line := jsTrimL rawLine
  if line.isEmpty then acc
  else
    match findERef line with
    | some (fp, ln, msg) =>
      { acc with
        fileErrors := addFileError acc.fileErrors (String.mk (jsBasename fp))
          (String.mk ("Line ".data ++ ln ++ ": ".data ++ msg)) }
    | none =>
      if containsSubL "pom.xml".data line || containsSubL "POM".data line ||
          containsSubL "maven".data line then
        { acc with
          fileErrors := addFileError acc.fileErrors "pom.xml"
            (String.mk (replaceFirstTag ["[ERROR]".data] line)) }
      else if containsSubL "[ERROR]".data line || containsSubL "[FATAL]".data line then
        { acc with
          generalErrors := acc.generalErrors ++
            [String.mk (replaceFirstTag ["[ERROR]".data, "[FATAL]".data] line)] }
      else acc

def parseErrors (buildErrors : String) : ParseResult :=
  (splitOnChar '\n' buildErrors.data).foldl processLine ⟨[], []⟩

/-- The route receives `buildErrors` from a JSON body, so it may be any JS
value; the code guards with `typeof buildErrors !== 'string'` and returns
the empty result for non-strings. -/
inductive JsValue
  | str (s : String)
  | nonString
  deriving Repr, DecidableEq

def parseErrorsChecked : JsValue → ParseResult
  | .str s => parseErrors s
  | .nonString => ⟨[], []⟩

/-! ## The `/api/fix` per-file loop

The route walks the request's `files` map in order.  For each file it looks
up the parsed errors under the file's basename; files with no errors are
skipped unless the path ends in `pom.xml`; then the prompt branch is chosen
by suffix (`.java`, `pom.xml`, `plugin.yml`) and any other file type is
skipped.  The external Gemini call is modelled by an oracle from (filename,
content) to the raw model text; `none` models a thrown `generateContent`
error, which the route catches and skips.  The model reply is cleaned by
`cleanContent` (strip a surrounding markdown fence) before being recorded
in the patch set. -/

def jsEndsWith (suffix l : List Char) : Bool := suffix.isSuffixOf l

/-- The route's markdown-fence cleanup: trim; if the trimmed text both
starts and ends with a triple backtick, take
`slice(indexOf('\n') + 1, lastIndexOf('```'))` and trim again. -/
def cleanContent (raw : List Char) : List Char :=
  let c := jsTrimL raw
  if "```".data.isPrefixOf c && "```".data.isSuffixOf c then
    let start := match c.findIdx? (· == '\n') with
      | some i => i + 1
      | none => 0
    jsTrimL ((c.take (c.length - 3)).drop start)
  else c

def fixLoopFiles (oracle : String → String → Option String) (parsed : ParseResult) :
    List (String × String) → List (String × String)
  | [] => []
  | (filename, content) :: rest =>
    let tail := fixLoopFiles oracle parsed rest
    let fileErrs := (parsed.fileErrors.lookup (String.mk (jsBasename filename.data))).getD []
    if fileErrs.isEmpty && !jsEndsWith "pom.xml".data filename.data then tail
    else if jsEndsWith ".java".data filename.data ||
        jsEndsWith "pom.xml".data filename.data ||
        jsEndsWith "plugin.yml".data filename.data then
      match oracle filename content with
      | some out => (filename, String.mk (cleanContent out.data)) :: tail
      | none => tail
    else tail

/-- The patch set the `/api/fix` route returns in `data` for a request that
passes the body validation (`buildErrors` may be any JS value; the parser
guards on its type). -/
def fixRoutePatchSet (oracle : String → String → Option String) (buildErrors : JsValue)
    (files : List (String × String)) : List (String × String) :=
  fixLoopFiles oracle (parseErrorsChecked buildErrors) files

/-! ## `writeFixedFiles` and Node `path.resolve`

When the request carries `pluginDir`, the route writes every entry of the
patch set to `path.resolve(pluginDir, filename)`, creating parent
directories as needed.  There is no validation of the entry paths. -/

/-- Normalize `/`-separated segments the way `path.resolve` does for an
absolute result: drop empty and `.` segments, let `..` pop the previous
segment (or vanish at the root). -/
def normalizeSegs (segs : List (List Char)) : List (List Char) :=
  segs.foldl
    (fun st seg =>
      if seg = [] || seg = ['.'] then st
      else if seg = ['.', '.'] then st.dropLast
      else st ++ [seg])
    []

/-- Node `path.resolve(base, p)` for an absolute `base`: `p` wins when it is
absolute, otherwise it is joined to `base`; the result is normalized. -/
def resolvePath (base p : List Char) : List Char :=
  let full := match p with
    | '/' :: _ => p
    | _ => base ++ '/' :: p
  '/' :: List.intercalate ['/'] (normalizeSegs (splitOnChar '/' full))

/-- `writeFixedFiles` from the fix route: the list of writes
(absolute path, content) it performs — one per entry of `fixedFiles`,
with the parent directory created first when missing. -/
def writeFixedFiles (fixedFiles : List (String × String)) (pluginDir : String) :
    List (String × String) :=
  fixedFiles.map (fun kv => (String.mk (resolvePath pluginDir.data kv.1.data), kv.2))

/-! ## The build-status route

`GET /api/build-status/:pluginName`: 404 when the plugin directory is
missing; otherwise `build_result.json` (parsed; a JSON parse error falls
into the 500 handler), then `build.log` (in progress), then the
"Build not started" 200 response. -/

structure StatusFs where
  pluginDirExists : Bool
  buildResultExists : Bool
  buildResultParses : Bool
  buildLogExists : Bool
  deriving Repr, DecidableEq

inductive StatusBody
  | pluginNotFound
  | completed
  | inProgress
  | notStarted
  | internalError
  deriving Repr, DecidableEq

structure HttpReply where
  httpStatus : Nat
  success : Bool
  body : StatusBody
  deriving Repr, DecidableEq

def buildStatusRoute (fs : StatusFs) : HttpReply :=
  if !fs.pluginDirExists then ⟨404, false, .pluginNotFound⟩
  else if fs.buildResultExists then
    if fs.buildResultParses then ⟨200, true, .completed⟩
    else ⟨500, false, .internalError⟩
  else if fs.buildLogExists then ⟨200, true, .inProgress⟩
  else ⟨200, true, .notStarted⟩

/-! ## The log broadcaster (`buildLogs.ts` + its callers in `build.ts`)

State: the module-level `activeStreams` map from plugin name to its set of
client streams (JS `Set`, insertion ordered, entry deleted when the last
stream disconnects), the per-plugin durable `build.log` contents (list of
appended lines), and what each client has received so far.  Payloads
abstract the SSE `data:` frames to their message (timestamps elided).

Events model the code paths that touch this state:
* `durable` — a build-process output chunk: `build.ts` appends it to
  `build.log` and calls `broadcastLogMessage`;
* `live` — a `broadcastLogMessage` call with no log append (`build.ts`
  does this for its own notices, e.g. "Build failed. Attempting to fix
  issues automatically...");
* `connect` — the SSE route registers the stream, sends the
  "Connected to log stream" frame, then replays the non-blank lines of
  `build.log` in file order;
* `disconnect` — the `close` handler removes the stream and deletes the
  plugin's entry when it was the last one. -/

inductive Payload
  | connected
  | msg (line : String)
  deriving Repr, DecidableEq

structure BroadcastState where
  subs : List (String × List Nat)
  logs : List (String × List String)
  received : Nat → List Payload

inductive BEvent
  | durable (proj line : String)
  | live (proj line : String)
  | connect (proj : String) (sub : Nat)
  | disconnect (proj : String) (sub : Nat)
  deriving Repr, DecidableEq

def updateAssoc {β : Type} : List (String × β) → String → β → List (String × β)
  | [], k, v => [(k, v)]
  | (k', v') :: r, k, v =>
    if k' = k then (k', v) :: r else (k', v') :: updateAssoc r k v

def removeAssoc {β : Type} : List (String × β) → String → List (String × β)
  | [], _ => []
  | (k', v') :: r, k => if k' = k then r else (k', v') :: removeAssoc r k

/-- `broadcastLogMessage`: look up the plugin's stream set; if it exists and
is non-empty, write the frame to every stream (same frame, same iteration
for all); otherwise do nothing. -/
def broadcastLogMessage (σ : BroadcastState) (p : String) (line : String) :
    BroadcastState :=
  match σ.subs.lookup p with
  | none => σ
  | some l =>
    if l.isEmpty then σ
    else
      { σ with
        received := fun i => if i ∈ l then σ.received i ++ [.msg line] else σ.received i }

/-- The replay a connecting client receives: the durable log's lines that
are non-blank after trimming, in order. -/
def replayOf (σ : BroadcastState) (p : String) : List Payload :=
  (((σ.logs.lookup p).getD []).filter fun line => !(jsTrimL line.data).isEmpty).map .msg

def logStep (σ : BroadcastState) : BEvent → BroadcastState
  | .durable p line =>
    let σ' := { σ with logs := updateAssoc σ.logs p (((σ.logs.lookup p).getD []) ++ [line]) }
    broadcastLogMessage σ' p line
  | .live p line => broadcastLogMessage σ p line
  | .connect p s =>
    let cur := (σ.subs.lookup p).getD []
    let cur' := if s ∈ cur then cur else cur ++ [s]
    { σ with
      subs := updateAssoc σ.subs p cur'
      received := fun i =>
        if i = s then σ.received i ++ [.connected] ++ replayOf σ p else σ.received i }
  | .disconnect p s =>
    match σ.subs.lookup p with
    | none => σ
    | some l =>
      let l' := l.erase s
      { σ with
        subs := if l'.isEmpty then removeAssoc σ.subs p else updateAssoc σ.subs p l' }

def initBroadcast : BroadcastState := ⟨[], [], fun _ => []⟩

def logRun (events : List BEvent) (σ : BroadcastState) : BroadcastState :=
  events.foldl logStep σ

/-- The lines a run of events broadcasts for plugin `p` (durable and live
publications), in order. -/
def broadcastLines (p : String) : List BEvent → List String
  | [] => []
  | .durable q line :: t => (if q = p then [line] else []) ++ broadcastLines p t
  | .live q line :: t => (if q = p then [line] else []) ++ broadcastLines p t
  | .connect _ _ :: t => broadcastLines p t
  | .disconnect _ _ :: t => broadcastLines p t

/-- `es` contains no connect/disconnect event for subscriber `s`. -/
def untouched (s : Nat) (es : List BEvent) : Bool :=
  es.all fun e =>
    match e with
    | .connect _ s' => s' != s
    | .disconnect _ s' => s' != s
    | _ => true

/-! ## The build script's AI-fix retry loop (`bash.sh`)

The script runs a first normal Maven build; on failure it enters the
AI-fix loop: `while [ $AI_FIX_ATTEMPTS -lt $MAX_AI_FIX_ATTEMPTS ] && [
"$BUILD_SUCCESS" = false ]`, incrementing `AI_FIX_ATTEMPTS` at the top of
each iteration.  Each iteration runs a compile-only build to capture
errors, calls the fix API (curl failure, empty response, non-success
status and an empty patch map all log and `continue`), applies the
returned patches (skipping suspicious paths), and retries a normal build;
only a successful build whose jar is found and verifies sets
`BUILD_SUCCESS` and breaks.  After the loop, if `BUILD_SUCCESS` is still
false, exactly one `no-shade` fallback build is attempted and the run
terminates with the corresponding `build_result.json`.

The environment oracle fixes, per attempt ordinal, the fix-API response
and the build/jar/verify outcomes; the fallback outcomes are single flags.
The model starts where the claims do: after the initial normal build has
failed. -/

inductive FixResp
  | apiFailure
  | ok (data : List (String × String))

structure ScriptEnv where
  fixResp : Nat → FixResp
  normalBuild : Nat → Bool
  jarFound : Nat → Bool
  jarVerify : Nat → Bool
  noShadeBuild : Bool
  noShadeJarFound : Bool
  noShadeVerify : Bool

inductive ScriptAction
  | compileOnlyBuild (attempt : Nat)
  | fixRequest (attempt : Nat)
  | writePatch (path : String)
  | skipSuspicious (path : String)
  | normalBuild (attempt : Nat)
  | noShadeBuild
  deriving Repr, DecidableEq

/-- `[[ "$FILE_PATH" == *".."* ]] || [[ "$FILE_PATH" == "/"* ]]`. -/
def isSuspiciousPath (p : String) : Bool :=
  containsSubL "..".data p.data || "/".data.isPrefixOf p.data

/-- The patch-application loop of the build script: suspicious paths are
skipped with a warning, every other entry is written after `mkdir -p` of
its parent.  Returns (written entries, skipped paths).  (`jq -r 'keys[]'`
iterates the map's keys in sorted order; the model keeps the given order,
which changes neither which entries are written nor the attempt's
outcome.) -/
def applyFixedFiles : List (String × String) → List (String × String) × List String
  | [] => ([], [])
  | (p, c) :: rest =>
    let ws := applyFixedFiles rest
    if isSuspiciousPath p then (ws.1, p :: ws.2) else ((p, c) :: ws.1, ws.2)

structure LoopOutcome where
  trace : List ScriptAction
  buildSuccess : Bool
  attempts : Nat
  deriving Repr, DecidableEq

/-- The AI-fix while loop.  `fuel` is `MAX_AI_FIX_ATTEMPTS - AI_FIX_ATTEMPTS`,
which the while condition keeps positive; `attempt` is the current value of
`AI_FIX_ATTEMPTS`. -/
def aiFixLoop (env : ScriptEnv) : Nat → Nat → LoopOutcome
  | 0, attempt => ⟨[], false, attempt⟩
  | fuel + 1, attempt =>
    let a := attempt + 1
    let pre := [ScriptAction.compileOnlyBuild a, ScriptAction.fixRequest a]
    match env.fixResp a with
    | .apiFailure =>
      let rest := aiFixLoop env fuel a
      ⟨pre ++ rest.trace, rest.buildSuccess, rest.attempts⟩
    | .ok data =>
      if data.length = 0 then
        let rest := aiFixLoop env fuel a
        ⟨pre ++ rest.trace, rest.buildSuccess, rest.attempts⟩
      else
        let ws := applyFixedFiles data
        let patchActs := ws.2.map ScriptAction.skipSuspicious ++
          ws.1.map (fun kv => ScriptAction.writePatch kv.1)
        let afterApply := pre ++ patchActs ++ [ScriptAction.normalBuild a]
        if env.normalBuild a then
          if env.jarFound a && env.jarVerify a then ⟨afterApply, true, a⟩
          else
            let rest := aiFixLoop env fuel a
            ⟨afterApply ++ rest.trace, rest.buildSuccess, rest.attempts⟩
        else
          let rest := aiFixLoop env fuel a
          ⟨afterApply ++ rest.trace, rest.buildSuccess, rest.attempts⟩

inductive RunResult
  | success (fixes : Nat)
  | successNoShade
  | failedJarVerify
  | failedJarMissing
  | failedAll
  deriving Repr, DecidableEq

/-- Whether `build_result.json` records `"success": true`. -/
def RunResult.isSuccess : RunResult → Bool
  | .success _ => true
  | .successNoShade => true
  | _ => false

/-- The failure branch of the script: the AI-fix loop, then — only when it
did not succeed — the single `no-shade` fallback build with its jar
search and verification. -/
def runBuildScript (env : ScriptEnv) (maxAttempts : Nat) :
    List ScriptAction × RunResult :=
  let L := aiFixLoop env maxAttempts 0
  if L.buildSuccess then (L.trace, .success L.attempts)
  else
    let t := L.trace ++ [ScriptAction.noShadeBuild]
    if env.noShadeBuild then
      if env.noShadeJarFound then
        if env.noShadeVerify then (t, .successNoShade) else (t, .failedJarVerify)
      else (t, .failedJarMissing)
    else (t, .failedAll)

/-- `MAX_AI_FIX_ATTEMPTS` default. -/
def MAX_AI_FIX_ATTEMPTS : Nat := 5

def isFixCycle : ScriptAction → Bool
  | .fixRequest _ => true
  | _ => false

/-- The subscriber list the registry holds for plugin `q` (empty when no
entry is registered). -/
def subsOf (σ : BroadcastState) (q : String) : List Nat := (σ.subs.lookup q).getD []

/-- The invariant threaded through the replay/live-delivery proof:
subscriber `s` is registered for `p` and for no other plugin, and the
registry has duplicate-free keys. -/
def subscribedOnly (σ : BroadcastState) (p : String) (s : Nat) : Prop :=
  s ∈ subsOf σ p ∧ (∀ q, q ≠ p → s ∉ subsOf σ q) ∧ (σ.subs.map Prod.fst).Nodup

/-- Whether event `e` is a connect/disconnect of subscriber `s`. -/
def eventSpares (s : Nat) : BEvent → Bool
  | .connect _ s' => s' != s
  | .disconnect _ s' => s' != s
  | _ => true

/-- An environment where the fix API reports success but returns an empty
patch map on every attempt, and the fallback no-shade pipeline succeeds. -/
def zeroPatchEnv : ScriptEnv :=
  ⟨fun _ => FixResp.ok [], fun _ => false, fun _ => false, fun _ => false, true, true, true⟩

/-! ## Helper lemmas -/

theorem splitOnChar_eq_single {sep : Char} :
    ∀ {l : List Char}, sep ∉ l → splitOnChar sep l = [l]
  | [], _ => rfl
  | c :: t, h => by
    have hc : ¬ c = sep := fun e => h (e ▸ List.mem_cons_self c t)
    have ht : sep ∉ t := fun m => h (List.mem_cons_of_mem c m)
    simp [splitOnChar, hc, splitOnChar_eq_single ht]

theorem applyFixedFiles_spec : ∀ data : List (String × String),
    (∀ pc ∈ data, isSuspiciousPath pc.1 = true → pc.1 ∈ (applyFixedFiles data).2) ∧
    (∀ pc ∈ data, isSuspiciousPath pc.1 = false → pc ∈ (applyFixedFiles data).1) ∧
    (∀ q ∈ (applyFixedFiles data).1, isSuspiciousPath q.1 = false) := by
  intro data
  induction data with
  | nil => simp [applyFixedFiles]
  | cons hd tl ih =>
    obtain ⟨p, c⟩ := hd
    obtain ⟨ih1, ih2, ih3⟩ := ih
    by_cases hs : isSuspiciousPath p = true
    · refine ⟨?_, ?_, ?_⟩
      · intro pc hpc hsusp
        simp only [applyFixedFiles, hs, if_true]
        rcases List.mem_cons.mp hpc with h | h
        · subst h; exact List.mem_cons_self _ _
        · exact List.mem_cons_of_mem _ (ih1 pc h hsusp)
      · intro pc hpc hns
        simp only [applyFixedFiles, hs, if_true]
        rcases List.mem_cons.mp hpc with h | h
        · subst h; simp [hs] at hns
        · exact ih2 pc h hns
      · intro q hq
        simp only [applyFixedFiles, hs, if_true] at hq
        exact ih3 q hq
    · have hs' : isSuspiciousPath p = false := by
        cases h : isSuspiciousPath p
        · rfl
        · exact absurd h hs
      refine ⟨?_, ?_, ?_⟩
      · intro pc hpc hsusp
        simp only [applyFixedFiles, hs', Bool.false_eq_true, if_false]
        rcases List.mem_cons.mp hpc with h | h
        · subst h; rw [hsusp] at hs'; exact absurd hs' (by simp)
        · exact ih1 pc h hsusp
      · intro pc hpc hns
        simp only [applyFixedFiles, hs', Bool.false_eq_true, if_false]
        rcases List.mem_cons.mp hpc with h | h
        · subst h; exact List.mem_cons_self _ _
        · exact List.mem_cons_of_mem _ (ih2 pc h hns)
      · intro q hq
        simp only [applyFixedFiles, hs', Bool.false_eq_true, if_false] at hq
        rcases List.mem_cons.mp hq with h | h
        · subst h; exact hs'
        · exact ih3 q h

theorem aiFixLoop_normalBuild_mem (env : ScriptEnv) (fuel attempt : Nat)
    (d : List (String × String))
    (h : env.fixResp (attempt + 1) = FixResp.ok d) (hd : d.length ≠ 0) :
    ScriptAction.normalBuild (attempt + 1) ∈ (aiFixLoop env (fuel + 1) attempt).trace := by
  simp only [aiFixLoop, h]
  simp only [if_neg hd]
  by_cases hb : env.normalBuild (attempt + 1) = true
  · simp only [hb, if_true]
    by_cases hj : (env.jarFound (attempt + 1) && env.jarVerify (attempt + 1)) = true
    · simp [hj, List.mem_append]
    · simp only [Bool.not_eq_true] at hj
      simp [hj, List.mem_append]
  · simp only [Bool.not_eq_true] at hb
    simp [hb, List.mem_append]

theorem fixLoopFiles_keys (oracle : String → String → Option String)
    (parsed : ParseResult) :
    ∀ files : List (String × String),
      ∀ k ∈ (fixLoopFiles oracle parsed files).map Prod.fst,
      k ∈ files.map Prod.fst ∧
      (jsEndsWith ".java".data k.data || jsEndsWith "pom.xml".data k.data ||
        jsEndsWith "plugin.yml".data k.data) = true ∧
      ((parsed.fileErrors.lookup (String.mk (jsBasename k.data))).getD [] = [] →
        jsEndsWith "pom.xml".data k.data = true) := by
  intro files
  induction files with
  | nil => simp [fixLoopFiles]
  | cons hd tl ih =>
    obtain ⟨fn, ct⟩ := hd
    intro k hk
    simp only [fixLoopFiles] at hk
    by_cases h1 : (((parsed.fileErrors.lookup (String.mk (jsBasename fn.data))).getD []).isEmpty
        && !jsEndsWith "pom.xml".data fn.data) = true
    · rw [if_pos h1] at hk
      obtain ⟨m, s, t⟩ := ih k hk
      exact ⟨List.mem_cons_of_mem _ m, s, t⟩
    · rw [if_neg h1] at hk
      by_cases h2 : (jsEndsWith ".java".data fn.data || jsEndsWith "pom.xml".data fn.data ||
          jsEndsWith "plugin.yml".data fn.data) = true
      · rw [if_pos h2] at hk
        cases ho : oracle fn ct with
        | none =>
          rw [ho] at hk
          obtain ⟨m, s, t⟩ := ih k hk
          exact ⟨List.mem_cons_of_mem _ m, s, t⟩
        | some out =>
          rw [ho] at hk
          simp only [List.map_cons, List.mem_cons] at hk
          rcases hk with hk | hk
          · subst hk
            refine ⟨by simp, h2, ?_⟩
            intro hE
            rw [hE] at h1
            simpa using h1
          · obtain ⟨m, s, t⟩ := ih k hk
            exact ⟨List.mem_cons_of_mem _ m, s, t⟩
      · rw [if_neg h2] at hk
        obtain ⟨m, s, t⟩ := ih k hk
        exact ⟨List.mem_cons_of_mem _ m, s, t⟩

theorem patchActs_no_fix (ws : List (String × String) × List String) :
    ((ws.2.map ScriptAction.skipSuspicious ++
      ws.1.map (fun kv => ScriptAction.writePatch kv.1)).countP isFixCycle) = 0 := by
  rw [List.countP_eq_zero]
  intro a ha
  rcases List.mem_append.mp ha with h | h <;>
    obtain ⟨x, _, rfl⟩ := List.mem_map.mp h <;> simp [isFixCycle]

theorem patchActs_no_noShade (ws : List (String × String) × List String) :
    ScriptAction.noShadeBuild ∉
      (ws.2.map ScriptAction.skipSuspicious ++
        ws.1.map (fun kv => ScriptAction.writePatch kv.1)) := by
  intro h
  rcases List.mem_append.mp h with h | h <;>
    obtain ⟨x, _, hx⟩ := List.mem_map.mp h <;> cases hx

theorem aiFixLoop_countFix (env : ScriptEnv) :
    ∀ fuel attempt, ((aiFixLoop env fuel attempt).trace.countP isFixCycle) ≤ fuel := by
  intro fuel
  induction fuel with
  | zero => intro attempt; simp [aiFixLoop]
  | succ n ih =>
    intro attempt
    have hpre : ∀ a : Nat,
        (([ScriptAction.compileOnlyBuild a, ScriptAction.fixRequest a] :
          List ScriptAction).countP isFixCycle) = 1 := fun a => rfl
    have hone : ∀ a : Nat,
        (([ScriptAction.normalBuild a] : List ScriptAction).countP isFixCycle) = 0 :=
      fun a => rfl
    cases h : env.fixResp (attempt + 1) with
    | apiFailure =>
      simp only [aiFixLoop, h]
      rw [List.countP_append, hpre]
      have := ih (attempt + 1)
      omega
    | ok data =>
      simp only [aiFixLoop, h]
      by_cases hd : data.length = 0
      · rw [if_pos hd, List.countP_append, hpre]
        have := ih (attempt + 1)
        omega
      · rw [if_neg hd]
        by_cases hb : env.normalBuild (attempt + 1) = true
        · rw [if_pos hb]
          by_cases hj : (env.jarFound (attempt + 1) && env.jarVerify (attempt + 1)) = true
          · rw [if_pos hj]
            rw [List.countP_append, List.countP_append, hpre, patchActs_no_fix, hone]
            omega
          · rw [if_neg hj]
            rw [List.countP_append, List.countP_append, List.countP_append, hpre,
              patchActs_no_fix, hone]
            have := ih (attempt + 1)
            omega
        · rw [if_neg hb]
          rw [List.countP_append, List.countP_append, List.countP_append, hpre,
            patchActs_no_fix, hone]
          have := ih (attempt + 1)
          omega

theorem aiFixLoop_no_noShade (env : ScriptEnv) :
    ∀ fuel attempt, ScriptAction.noShadeBuild ∉ (aiFixLoop env fuel attempt).trace := by
  intro fuel
  induction fuel with
  | zero => intro attempt; simp [aiFixLoop]
  | succ n ih =>
    intro attempt
    cases h : env.fixResp (attempt + 1) with
    | apiFailure =>
      simp only [aiFixLoop, h, List.mem_append, List.mem_cons, List.mem_singleton]
      push_neg
      exact ⟨⟨by simp, by simp, by simp⟩, ih (attempt + 1)⟩
    | ok data =>
      simp only [aiFixLoop, h]
      by_cases hd : data.length = 0
      · rw [if_pos hd]
        simp only [List.mem_append, List.mem_cons, List.mem_singleton]
        push_neg
        exact ⟨⟨by simp, by simp, by simp⟩, ih (attempt + 1)⟩
      · rw [if_neg hd]
        intro hmem
        revert hmem
        by_cases hb : env.normalBuild (attempt + 1) = true
        · rw [if_pos hb]
          by_cases hj : (env.jarFound (attempt + 1) && env.jarVerify (attempt + 1)) = true
          · rw [if_pos hj]
            intro hmem
            rcases List.mem_append.mp hmem with hm | hm
            · rcases List.mem_append.mp hm with hm' | hm'
              · simp at hm'
              · exact patchActs_no_noShade _ hm'
            · simp at hm
          · rw [if_neg hj]
            intro hmem
            rcases List.mem_append.mp hmem with hm | hm
            · rcases List.mem_append.mp hm with hm' | hm'
              · rcases List.mem_append.mp hm' with hm'' | hm''
                · simp at hm''
                · exact patchActs_no_noShade _ hm''
              · simp at hm'
            · exact ih (attempt + 1) hm
        · rw [if_neg hb]
          intro hmem
          rcases List.mem_append.mp hmem with hm | hm
          · rcases List.mem_append.mp hm with hm' | hm'
            · rcases List.mem_append.mp hm' with hm'' | hm''
              · simp at hm''
              · exact patchActs_no_noShade _ hm''
            · simp at hm'
          · exact ih (attempt + 1) hm

theorem runBuildScript_fst (env : ScriptEnv) (maxAttempts : Nat) :
    (runBuildScript env maxAttempts).1 =
      if (aiFixLoop env maxAttempts 0).buildSuccess then (aiFixLoop env maxAttempts 0).trace
      else (aiFixLoop env maxAttempts 0).trace ++ [ScriptAction.noShadeBuild] := by
  unfold runBuildScript
  by_cases hs : (aiFixLoop env maxAttempts 0).buildSuccess = true
  · simp [hs]
  · simp only [Bool.not_eq_true] at hs
    simp only [hs, Bool.false_eq_true, if_false]
    by_cases h1 : env.noShadeBuild = true
    · simp only [h1, if_true]
      by_cases h2 : env.noShadeJarFound = true
      · simp only [h2, if_true]
        by_cases h3 : env.noShadeVerify = true
        · simp [h3]
        · simp only [Bool.not_eq_true] at h3; simp [h3]
      · simp only [Bool.not_eq_true] at h2; simp [h2]
    · simp only [Bool.not_eq_true] at h1; simp [h1]

theorem aiFixLoop_unproductive (env : ScriptEnv)
    (hz : ∀ n, env.fixResp n = FixResp.apiFailure ∨ env.fixResp n = FixResp.ok []) :
    ∀ fuel attempt,
      (aiFixLoop env fuel attempt).buildSuccess = false ∧
      (aiFixLoop env fuel attempt).attempts = attempt + fuel ∧
      ((aiFixLoop env fuel attempt).trace.countP isFixCycle) = fuel := by
  intro fuel
  induction fuel with
  | zero => intro attempt; exact ⟨rfl, rfl, rfl⟩
  | succ n ih =>
    intro attempt
    obtain ⟨ih1, ih2, ih3⟩ := ih (attempt + 1)
    have hp : (([ScriptAction.compileOnlyBuild (attempt + 1),
        ScriptAction.fixRequest (attempt + 1)] : List ScriptAction).countP isFixCycle) = 1 := rfl
    rcases hz (attempt + 1) with h | h
    · simp only [aiFixLoop, h]
      refine ⟨ih1, by omega, ?_⟩
      rw [List.countP_append, ih3, hp]
      omega
    · simp only [aiFixLoop, h, List.length_nil, if_true]
      refine ⟨ih1, by omega, ?_⟩
      rw [List.countP_append, ih3, hp]
      omega

theorem lookup_updateAssoc_self {β : Type} (m : List (String × β)) (k : String) (v : β) :
    (updateAssoc m k v).lookup k = some v := by
  induction m with
  | nil => simp [updateAssoc, List.lookup]
  | cons hd tl ih =>
    obtain ⟨k', v'⟩ := hd
    by_cases h : k' = k
    · subst h
      simp [updateAssoc, List.lookup]
    · have hb : (k == k') = false := by
        simp [Ne.symm h]
      simp [updateAssoc, h, List.lookup, hb, ih]

theorem lookup_updateAssoc_ne {β : Type} (m : List (String × β)) (k k' : String) (v : β)
    (h : k' ≠ k) : (updateAssoc m k v).lookup k' = m.lookup k' := by
  induction m with
  | nil =>
    have hb : (k' == k) = false := by simp [h]
    simp [updateAssoc, List.lookup, hb]
  | cons hd tl ih =>
    obtain ⟨a, b⟩ := hd
    by_cases ha : a = k
    · subst ha
      have hb : (k' == a) = false := by simp [h]
      simp [updateAssoc, List.lookup, hb]
    · simp [updateAssoc, ha, List.lookup, ih]

theorem lookup_removeAssoc_ne {β : Type} (m : List (String × β)) (k k' : String)
    (h : k' ≠ k) : (removeAssoc m k).lookup k' = m.lookup k' := by
  induction m with
  | nil => simp [removeAssoc]
  | cons hd tl ih =>
    obtain ⟨a, b⟩ := hd
    by_cases ha : a = k
    · subst ha
      have hb : (k' == a) = false := by simp [h]
      simp [removeAssoc, List.lookup, hb]
    · simp [removeAssoc, ha, List.lookup, ih]

theorem removeAssoc_sublist {β : Type} (m : List (String × β)) (k : String) :
    (removeAssoc m k).Sublist m := by
  induction m with
  | nil => simp [removeAssoc]
  | cons hd tl ih =>
    obtain ⟨a, b⟩ := hd
    by_cases ha : a = k
    · simp only [removeAssoc, ha, if_pos rfl]
      exact List.sublist_cons_self _ _
    · simp only [removeAssoc, ha, if_false]
      exact ih.cons₂ _

theorem mem_updateAssoc {β : Type} (m : List (String × β)) (k : String) (v : β) :
    ∀ x ∈ updateAssoc m k v, x = (k, v) ∨ x ∈ m := by
  induction m with
  | nil => simp [updateAssoc]
  | cons hd tl ih =>
    obtain ⟨a, b⟩ := hd
    intro x hx
    by_cases ha : a = k
    · subst ha
      simp only [updateAssoc, if_pos rfl] at hx
      rcases List.mem_cons.mp hx with h | h
      · exact Or.inl (by simpa using h)
      · exact Or.inr (List.mem_cons_of_mem _ h)
    · simp only [updateAssoc, if_neg ha] at hx
      rcases List.mem_cons.mp hx with h | h
      · exact Or.inr (by simp [h])
      · rcases ih x h with h' | h'
        · exact Or.inl h'
        · exact Or.inr (List.mem_cons_of_mem _ h')

theorem mem_keys_updateAssoc {β : Type} (m : List (String × β)) (k : String) (v : β) :
    ∀ x ∈ (updateAssoc m k v).map Prod.fst, x ∈ m.map Prod.fst ∨ x = k := by
  intro x hx
  obtain ⟨pc, hpc, rfl⟩ := List.mem_map.mp hx
  rcases mem_updateAssoc m k v pc hpc with h | h
  · exact Or.inr (by rw [h])
  · exact Or.inl (List.mem_map_of_mem _ h)

theorem nodupKeys_updateAssoc {β : Type} (m : List (String × β)) (k : String) (v : β)
    (h : (m.map Prod.fst).Nodup) : ((updateAssoc m k v).map Prod.fst).Nodup := by
  induction m with
  | nil => simp [updateAssoc]
  | cons hd tl ih =>
    obtain ⟨a, b⟩ := hd
    simp only [List.map_cons, List.nodup_cons] at h
    obtain ⟨hna, hnd⟩ := h
    by_cases ha : a = k
    · subst ha
      simp only [updateAssoc, if_pos rfl, if_true, List.map_cons, List.nodup_cons]
      exact ⟨hna, hnd⟩
    · simp only [updateAssoc, if_neg ha, List.map_cons, List.nodup_cons]
      refine ⟨?_, ih hnd⟩
      intro hmem
      rcases mem_keys_updateAssoc tl k v a hmem with h | h
      · exact hna h
      · exact ha h

theorem nodupKeys_removeAssoc {β : Type} (m : List (String × β)) (k : String)
    (h : (m.map Prod.fst).Nodup) : ((removeAssoc m k).map Prod.fst).Nodup :=
  ((removeAssoc_sublist m k).map Prod.fst).nodup h

theorem lookup_eq_none_of_not_mem_keys {β : Type} (m : List (String × β)) (k : String)
    (h : k ∉ m.map Prod.fst) : m.lookup k = none := by
  induction m with
  | nil => simp [List.lookup]
  | cons hd tl ih =>
    obtain ⟨a, b⟩ := hd
    simp only [List.map_cons, List.mem_cons, not_or] at h
    have hb : (k == a) = false := by simp [h.1]
    simp [List.lookup, hb, ih h.2]

theorem lookup_removeAssoc_self {β : Type} (m : List (String × β)) (k : String)
    (h : (m.map Prod.fst).Nodup) : (removeAssoc m k).lookup k = none := by
  induction m with
  | nil => simp [removeAssoc, List.lookup]
  | cons hd tl ih =>
    obtain ⟨a, b⟩ := hd
    simp only [List.map_cons, List.nodup_cons] at h
    obtain ⟨hna, hnd⟩ := h
    by_cases ha : a = k
    · subst ha
      simp only [removeAssoc, if_pos rfl]
      exact lookup_eq_none_of_not_mem_keys tl a hna
    · have hb : (k == a) = false := by simp [Ne.symm ha]
      simp [removeAssoc, ha, List.lookup, hb, ih hnd]

theorem broadcast_subs (σ : BroadcastState) (q line : String) :
    (broadcastLogMessage σ q line).subs = σ.subs := by
  unfold broadcastLogMessage
  cases h : σ.subs.lookup q with
  | none => rfl
  | some l =>
    by_cases he : l.isEmpty = true
    · simp [he]
    · simp [he]

theorem broadcast_received (σ : BroadcastState) (q line : String) (s : Nat) :
    (broadcastLogMessage σ q line).received s =
      (if s ∈ (σ.subs.lookup q).getD [] then σ.received s ++ [Payload.msg line]
       else σ.received s) := by
  unfold broadcastLogMessage
  cases h : σ.subs.lookup q with
  | none => simp [h]
  | some l =>
    by_cases he : l.isEmpty = true
    · have : l = [] := List.isEmpty_iff.mp he
      subst this
      simp [he]
    · simp [he, h]

theorem untouched_eq_all (s : Nat) (es : List BEvent) :
    untouched s es = es.all (eventSpares s) := by
  unfold untouched
  congr 1

theorem logStep_durable_received (σ : BroadcastState) (q line : String) (s : Nat) :
    (logStep σ (.durable q line)).received s =
      (if s ∈ (σ.subs.lookup q).getD [] then σ.received s ++ [Payload.msg line]
       else σ.received s) :=
  broadcast_received
    { σ with logs := updateAssoc σ.logs q (((σ.logs.lookup q).getD []) ++ [line]) } q line s

theorem logStep_durable_subs (σ : BroadcastState) (q line : String) :
    (logStep σ (.durable q line)).subs = σ.subs :=
  broadcast_subs
    { σ with logs := updateAssoc σ.logs q (((σ.logs.lookup q).getD []) ++ [line]) } q line

theorem logStep_live_received (σ : BroadcastState) (q line : String) (s : Nat) :
    (logStep σ (.live q line)).received s =
      (if s ∈ (σ.subs.lookup q).getD [] then σ.received s ++ [Payload.msg line]
       else σ.received s) :=
  broadcast_received σ q line s

theorem logStep_live_subs (σ : BroadcastState) (q line : String) :
    (logStep σ (.live q line)).subs = σ.subs :=
  broadcast_subs σ q line

theorem subscribedOnly_of_subs_eq {σ σ' : BroadcastState} {p : String} {s : Nat}
    (h : σ'.subs = σ.subs) (hI : subscribedOnly σ p s) : subscribedOnly σ' p s := by
  obtain ⟨a, b, c⟩ := hI
  refine ⟨?_, ?_, ?_⟩
  · show s ∈ (σ'.subs.lookup p).getD []
    rw [h]
    exact a
  · intro q hq
    show s ∉ (σ'.subs.lookup q).getD []
    rw [h]
    exact b q hq
  · rw [h]
    exact c

theorem logStep_subscribed (σ : BroadcastState) (p : String) (s : Nat)
    (hI : subscribedOnly σ p s) (e : BEvent) (he : eventSpares s e = true) :
    (logStep σ e).received s = σ.received s ++ (broadcastLines p [e]).map Payload.msg ∧
    subscribedOnly (logStep σ e) p s := by
  obtain ⟨hin, hout, hnd⟩ := hI
  have hin' : s ∈ (σ.subs.lookup p).getD [] := hin
  have hout' : ∀ q, q ≠ p → s ∉ (σ.subs.lookup q).getD [] := hout
  cases e with
  | durable q line =>
    refine ⟨?_, subscribedOnly_of_subs_eq (logStep_durable_subs σ q line) ⟨hin, hout, hnd⟩⟩
    rw [logStep_durable_received]
    by_cases hq : q = p
    · subst hq
      rw [if_pos hin']
      simp [broadcastLines]
    · rw [if_neg (hout' q hq)]
      simp [broadcastLines, hq]
  | live q line =>
    refine ⟨?_, subscribedOnly_of_subs_eq (logStep_live_subs σ q line) ⟨hin, hout, hnd⟩⟩
    rw [logStep_live_received]
    by_cases hq : q = p
    · subst hq
      rw [if_pos hin']
      simp [broadcastLines]
    · rw [if_neg (hout' q hq)]
      simp [broadcastLines, hq]
  | connect q s' =>
    have hs' : s' ≠ s := by simpa [eventSpares] using he
    have hss' : ¬ s = s' := fun h => hs' h.symm
    constructor
    · show (if s = s' then _ else σ.received s) = _
      rw [if_neg hss']
      simp [broadcastLines]
    · refine ⟨?_, ?_, ?_⟩
      · show s ∈ ((updateAssoc σ.subs q _).lookup p).getD []
        by_cases hq : q = p
        · subst hq
          rw [lookup_updateAssoc_self]
          by_cases hm : s' ∈ (σ.subs.lookup q).getD []
          · simpa [hm] using hin'
          · simp only [hm, if_false, Option.getD_some]
            exact List.mem_append_left _ hin'
        · rw [lookup_updateAssoc_ne _ _ _ _ (fun h => hq h.symm)]
          exact hin'
      · intro r hr
        show s ∉ ((updateAssoc σ.subs q _).lookup r).getD []
        by_cases hrq : r = q
        · subst hrq
          rw [lookup_updateAssoc_self]
          have hsr : s ∉ (σ.subs.lookup r).getD [] := hout' r hr
          by_cases hm : s' ∈ (σ.subs.lookup r).getD []
          · simpa [hm] using hsr
          · simp only [hm, if_false, Option.getD_some]
            intro hmem
            rcases List.mem_append.mp hmem with h | h
            · exact hsr h
            · have hss : s = s' := by simpa using h
              exact hs' hss.symm
        · rw [lookup_updateAssoc_ne _ _ _ _ hrq]
          exact hout' r hr
      · show ((updateAssoc σ.subs q _).map Prod.fst).Nodup
        exact nodupKeys_updateAssoc _ _ _ hnd
  | disconnect q s' =>
    have hs' : s' ≠ s := by simpa [eventSpares] using he
    cases hq : σ.subs.lookup q with
    | none =>
      have hid : logStep σ (.disconnect q s') = σ := by
        simp [logStep, hq]
      rw [hid]
      refine ⟨?_, hin, hout, hnd⟩
      simp [broadcastLines]
    | some l =>
      have hstep : logStep σ (.disconnect q s') =
          { σ with subs := if (l.erase s').isEmpty then removeAssoc σ.subs q
              else updateAssoc σ.subs q (l.erase s') } := by
        simp [logStep, hq]
      rw [hstep]
      refine ⟨by simp [broadcastLines], ?_, ?_, ?_⟩
      · show s ∈ ((if (l.erase s').isEmpty then removeAssoc σ.subs q
            else updateAssoc σ.subs q (l.erase s')).lookup p).getD []
        by_cases hqp : q = p
        · subst hqp
          have hsl : s ∈ l := by simpa [hq] using hin'
          have hsl' : s ∈ l.erase s' := (List.mem_erase_of_ne (fun h => hs' h.symm)).mpr hsl
          have hl : (l.erase s').isEmpty = false := by
            cases hle : l.erase s' with
            | nil => rw [hle] at hsl'; cases hsl'
            | cons a t => rfl
          rw [hl]
          simp only [Bool.false_eq_true, if_false]
          rw [lookup_updateAssoc_self]
          exact hsl'
        · by_cases hl : (l.erase s').isEmpty = true
          · rw [hl]
            simp only [if_true]
            rw [lookup_removeAssoc_ne _ _ _ (fun h => hqp h.symm)]
            exact hin'
          · rw [Bool.not_eq_true] at hl
            rw [hl]
            simp only [Bool.false_eq_true, if_false]
            rw [lookup_updateAssoc_ne _ _ _ _ (fun h => hqp h.symm)]
            exact hin'
      · intro r hr
        show s ∉ ((if (l.erase s').isEmpty then removeAssoc σ.subs q
            else updateAssoc σ.subs q (l.erase s')).lookup r).getD []
        by_cases hl : (l.erase s').isEmpty = true
        · rw [hl]
          simp only [if_true]
          by_cases hrq : r = q
          · subst hrq
            rw [lookup_removeAssoc_self _ _ hnd]
            simp
          · rw [lookup_removeAssoc_ne _ _ _ hrq]
            exact hout' r hr
        · rw [Bool.not_eq_true] at hl
          rw [hl]
          simp only [Bool.false_eq_true, if_false]
          by_cases hrq : r = q
          · subst hrq
            rw [lookup_updateAssoc_self]
            intro hmem
            exact hout' r hr (by simpa [hq] using List.mem_of_mem_erase hmem)
          · rw [lookup_updateAssoc_ne _ _ _ _ hrq]
            exact hout' r hr
      · show (((if (l.erase s').isEmpty then removeAssoc σ.subs q
            else updateAssoc σ.subs q (l.erase s')).map Prod.fst)).Nodup
        by_cases hl : (l.erase s').isEmpty = true
        · rw [hl]
          simp only [if_true]
          exact nodupKeys_removeAssoc _ _ hnd
        · rw [Bool.not_eq_true] at hl
          rw [hl]
          simp only [Bool.false_eq_true, if_false]
          exact nodupKeys_updateAssoc _ _ _ hnd

theorem logStep_nodupKeys (σ : BroadcastState) (e : BEvent)
    (h : (σ.subs.map Prod.fst).Nodup) : ((logStep σ e).subs.map Prod.fst).Nodup := by
  cases e with
  | durable q line => rw [logStep_durable_subs]; exact h
  | live q line => rw [logStep_live_subs]; exact h
  | connect q s' => exact nodupKeys_updateAssoc _ _ _ h
  | disconnect q s' =>
    cases hq : σ.subs.lookup q with
    | none => simpa [logStep, hq] using h
    | some l =>
      by_cases hl : (l.erase s').isEmpty = true
      · simp only [logStep, hq, hl, if_true]
        exact nodupKeys_removeAssoc _ _ h
      · rw [Bool.not_eq_true] at hl
        simp only [logStep, hq, hl, Bool.false_eq_true, if_false]
        exact nodupKeys_updateAssoc _ _ _ h

theorem logRun_nodupKeys : ∀ (es : List BEvent) (σ : BroadcastState),
    (σ.subs.map Prod.fst).Nodup → ((logRun es σ).subs.map Prod.fst).Nodup
  | [], _, h => h
  | e :: t, σ, h => logRun_nodupKeys t _ (logStep_nodupKeys σ e h)

theorem broadcastLines_cons (p : String) (e : BEvent) (t : List BEvent) :
    broadcastLines p (e :: t) = broadcastLines p [e] ++ broadcastLines p t := by
  cases e <;> simp [broadcastLines]

theorem logRun_subscribed (p : String) (s : Nat) :
    ∀ (t2 : List BEvent) (σ : BroadcastState), subscribedOnly σ p s →
      untouched s t2 = true →
      (logRun t2 σ).received s = σ.received s ++ (broadcastLines p t2).map Payload.msg := by
  intro t2
  induction t2 with
  | nil => intro σ _ _; simp [logRun, broadcastLines]
  | cons e t ih =>
    intro σ hI hu
    rw [untouched_eq_all, List.all_cons, Bool.and_eq_true] at hu
    obtain ⟨he, hu'⟩ := hu
    obtain ⟨hrec, hI'⟩ := logStep_subscribed σ p s hI e he
    have hrun : logRun (e :: t) σ = logRun t (logStep σ e) := rfl
    rw [hrun, ih _ hI' (by rw [untouched_eq_all]; exact hu'), hrec]
    rw [broadcastLines_cons p e t, List.map_append, List.append_assoc]

theorem logStep_entries_nonempty (σ : BroadcastState) (e : BEvent)
    (h : ∀ pl ∈ σ.subs, pl.2 ≠ []) :
    ∀ pl ∈ (logStep σ e).subs, pl.2 ≠ [] := by
  cases e with
  | durable q line => rw [logStep_durable_subs]; exact h
  | live q line => rw [logStep_live_subs]; exact h
  | connect q s' =>
    intro pl hpl
    have hpl' : pl ∈ updateAssoc σ.subs q
        (if s' ∈ (σ.subs.lookup q).getD [] then (σ.subs.lookup q).getD []
         else (σ.subs.lookup q).getD [] ++ [s']) := hpl
    rcases mem_updateAssoc _ _ _ pl hpl' with he | he
    · rw [he]
      by_cases hm : s' ∈ (σ.subs.lookup q).getD []
      · simp only [hm, if_true]
        exact List.ne_nil_of_mem hm
      · simp only [hm, if_false]
        simp
    · exact h pl he
  | disconnect q s' =>
    cases hq : σ.subs.lookup q with
    | none =>
      intro pl hpl
      exact h pl (by simpa [logStep, hq] using hpl)
    | some l =>
      intro pl hpl
      by_cases hl : (l.erase s').isEmpty = true
      · have hpl' : pl ∈ removeAssoc σ.subs q := by
          simpa [logStep, hq, hl] using hpl
        exact h pl ((removeAssoc_sublist σ.subs q).subset hpl')
      · rw [Bool.not_eq_true] at hl
        have hpl' : pl ∈ updateAssoc σ.subs q (l.erase s') := by
          simpa [logStep, hq, hl] using hpl
        rcases mem_updateAssoc _ _ _ pl hpl' with he | he
        · rw [he]
          intro hnil
          rw [show (q, l.erase s').2 = l.erase s' from rfl] at hnil
          rw [hnil] at hl
          cases hl
        · exact h pl he

end GeminiApi

namespace GeminiApi

/-! ## Claim theorems -/

/-- C4: parsing the single line `[ERROR] Foo.java:[12,4] cannot find symbol`
yields a file-error map whose only entry is `Foo.java ↦ ["Line 12: cannot
find symbol"]`, and an empty list of general errors. -/
theorem parseErrors_structured_line :
    parseErrors "[ERROR] Foo.java:[12,4] cannot find symbol" =
      ⟨[("Foo.java", ["Line 12: cannot find symbol"])], []⟩ := by
  decide

/-- C5: the error parser returns the empty result — and in particular never
throws, being a total function — on non-string input (caught by the
`typeof` guard) and on the empty string. -/
theorem parseErrors_nonstring_or_empty (v : JsValue)
    (h : v = JsValue.nonString ∨ v = JsValue.str "") :
    parseErrorsChecked v = ⟨[], []⟩ := by
  rcases h with h | h <;> subst h <;> decide

theorem parseErrors_nonstring_or_empty_w :
    parseErrorsChecked JsValue.nonString = ⟨[], []⟩ :=
  parseErrors_nonstring_or_empty JsValue.nonString (Or.inl rfl)

/-- C6: querying the build status of an existing project that has neither a
`build_result.json` nor a `build.log` yields HTTP 200 with `success: true`
and the "Build not started" body — a successful response, not an error.
(A request for a project whose directory does not exist is a different
condition and returns 404.) -/
theorem buildStatus_missing_record (fs : StatusFs)
    (hdir : fs.pluginDirExists = true)
    (hres : fs.buildResultExists = false)
    (hlog : fs.buildLogExists = false) :
    buildStatusRoute fs = ⟨200, true, StatusBody.notStarted⟩ := by
  obtain ⟨a, b, c, d⟩ := fs
  subst hdir hres hlog
  rfl

theorem buildStatus_missing_record_w :
    buildStatusRoute ⟨true, false, true, false⟩ = ⟨200, true, StatusBody.notStarted⟩ :=
  buildStatus_missing_record ⟨true, false, true, false⟩ rfl rfl rfl

/-- C8: a single input line that is non-blank after trimming, does not
match the structured diagnostic regex, but mentions `pom.xml`, `POM` or
`maven`, is appended to the file-error map under the key `pom.xml` (after
removing the first `[ERROR]`-plus-whitespace tag, if any), regardless of
whether the line carries any `[ERROR]`/`[FATAL]` marker. -/
theorem pom_keyword_bucketing (s : String)
    (hnl : '\n' ∉ s.data)
    (hne : (jsTrimL s.data).isEmpty = false)
    (hnomatch : findERef (jsTrimL s.data) = none)
    (hkw : (containsSubL "pom.xml".data (jsTrimL s.data) ||
      containsSubL "POM".data (jsTrimL s.data) ||
      containsSubL "maven".data (jsTrimL s.data)) = true) :
    parseErrors s =
      ⟨[("pom.xml",
          [String.mk (replaceFirstTag ["[ERROR]".data] (jsTrimL s.data))])], []⟩ := by
  unfold parseErrors
  rw [splitOnChar_eq_single hnl]
  show processLine ⟨[], []⟩ s.data = _
  unfold processLine
  simp only [hne, Bool.false_eq_true, if_false, hnomatch, hkw, if_true]
  rfl

theorem pom_keyword_bucketing_w :
    parseErrors "Downloading maven artifacts" =
      ⟨[("pom.xml", ["Downloading maven artifacts"])], []⟩ :=
  (pom_keyword_bucketing "Downloading maven artifacts" (by decide) (by decide)
    (by decide) (by decide)).trans (by decide)

/-- C1: the AI-fix loop performs at most `maxAttempts` fix cycles
(`MAX_AI_FIX_ATTEMPTS = 5` by default), and when the loop ends without a
successful build exactly one fallback no-shade build is attempted before
the run terminates; a successful loop performs no fallback. -/
theorem retry_budget_and_single_fallback (env : ScriptEnv) (maxAttempts : Nat) :
    ((runBuildScript env maxAttempts).1.countP isFixCycle) ≤ maxAttempts ∧
    ((aiFixLoop env maxAttempts 0).buildSuccess = false →
      (runBuildScript env maxAttempts).1.count ScriptAction.noShadeBuild = 1) ∧
    ((aiFixLoop env maxAttempts 0).buildSuccess = true →
      (runBuildScript env maxAttempts).1.count ScriptAction.noShadeBuild = 0) := by
  refine ⟨?_, ?_, ?_⟩
  · rw [runBuildScript_fst]
    by_cases hs : (aiFixLoop env maxAttempts 0).buildSuccess = true
    · rw [if_pos hs]
      exact aiFixLoop_countFix env maxAttempts 0
    · rw [if_neg hs, List.countP_append]
      have h1 := aiFixLoop_countFix env maxAttempts 0
      have h2 : (([ScriptAction.noShadeBuild] : List ScriptAction).countP isFixCycle) = 0 := rfl
      omega
  · intro hs
    rw [runBuildScript_fst, if_neg (by simp [hs]), List.count_append]
    have h0 : (aiFixLoop env maxAttempts 0).trace.count ScriptAction.noShadeBuild = 0 :=
      List.count_eq_zero.mpr (aiFixLoop_no_noShade env maxAttempts 0)
    rw [h0]
    rfl
  · intro hs
    rw [runBuildScript_fst, if_pos hs]
    exact List.count_eq_zero.mpr (aiFixLoop_no_noShade env maxAttempts 0)

/-- C1 witness: a concrete run (every fix request failing) stays within the
default budget of 5 and performs exactly one fallback no-shade build. -/
theorem retry_budget_and_single_fallback_w :
    (((runBuildScript ⟨fun _ => FixResp.apiFailure, fun _ => false, fun _ => false,
        fun _ => false, false, false, false⟩ MAX_AI_FIX_ATTEMPTS).1.countP isFixCycle)
      ≤ MAX_AI_FIX_ATTEMPTS) ∧
    ((runBuildScript ⟨fun _ => FixResp.apiFailure, fun _ => false, fun _ => false,
        fun _ => false, false, false, false⟩ MAX_AI_FIX_ATTEMPTS).1.count
      ScriptAction.noShadeBuild = 1) := by
  refine ⟨(retry_budget_and_single_fallback _ _).1, ?_⟩
  exact (retry_budget_and_single_fallback _ _).2.1 (by decide)

/-- C2 amended: when the fix API yields a non-success response or zero
patches on every attempt, each unproductive iteration still consumes one
unit of the budget, the loop stops after exactly `maxAttempts` fix cycles,
and the run then takes the single fallback path: it ends `Failed` when the
no-shade fallback also fails, and ends as a degraded no-shade success when
the fallback build, jar search and verification all succeed. -/
theorem unproductive_attempts_exhaust_budget (env : ScriptEnv) (maxAttempts : Nat)
    (hz : ∀ n, env.fixResp n = FixResp.apiFailure ∨ env.fixResp n = FixResp.ok []) :
    (aiFixLoop env maxAttempts 0).attempts = maxAttempts ∧
    ((runBuildScript env maxAttempts).1.countP isFixCycle) = maxAttempts ∧
    (runBuildScript env maxAttempts).2 =
      (if env.noShadeBuild then
        if env.noShadeJarFound then
          if env.noShadeVerify then RunResult.successNoShade else RunResult.failedJarVerify
        else RunResult.failedJarMissing
      else RunResult.failedAll) := by
  obtain ⟨h1, h2, h3⟩ := aiFixLoop_unproductive env hz maxAttempts 0
  refine ⟨by simpa using h2, ?_, ?_⟩
  · rw [runBuildScript_fst, if_neg (by simp [h1]), List.countP_append, h3]
    rfl
  · unfold runBuildScript
    simp only [h1, Bool.false_eq_true, if_false]
    by_cases b1 : env.noShadeBuild = true
    · simp only [b1, if_true]
      by_cases b2 : env.noShadeJarFound = true
      · simp only [b2, if_true]
        by_cases b3 : env.noShadeVerify = true
        · simp [b3]
        · simp only [Bool.not_eq_true] at b3; simp [b3]
      · simp only [Bool.not_eq_true] at b2; simp [b2]
    · simp only [Bool.not_eq_true] at b1; simp [b1]

/-- C2 counterexample: with zero patches on every attempt the run does not
necessarily end `Failed` — when the no-shade fallback pipeline succeeds the
script records a (degraded) success in `build_result.json`. -/
theorem zero_patches_can_end_degraded_success :
    (runBuildScript zeroPatchEnv MAX_AI_FIX_ATTEMPTS).2 = RunResult.successNoShade ∧
    RunResult.isSuccess (runBuildScript zeroPatchEnv MAX_AI_FIX_ATTEMPTS).2 = true :=
  ⟨rfl, rfl⟩

/-- C2 witness: a concrete environment where every fix request fails and so
does the fallback; the budget is consumed in full and the run ends failed. -/
theorem unproductive_attempts_exhaust_budget_w :
    (aiFixLoop ⟨fun _ => FixResp.apiFailure, fun _ => false, fun _ => false,
      fun _ => false, false, false, false⟩ MAX_AI_FIX_ATTEMPTS 0).attempts
        = MAX_AI_FIX_ATTEMPTS ∧
    (runBuildScript ⟨fun _ => FixResp.apiFailure, fun _ => false, fun _ => false,
      fun _ => false, false, false, false⟩ MAX_AI_FIX_ATTEMPTS).2 = RunResult.failedAll := by
  have h := unproductive_attempts_exhaust_budget
    ⟨fun _ => FixResp.apiFailure, fun _ => false, fun _ => false,
      fun _ => false, false, false, false⟩ MAX_AI_FIX_ATTEMPTS
    (fun n => Or.inl rfl)
  exact ⟨h.1, h.2.2⟩

/-- C3 amended: in the build script's patch applier, every entry whose path
contains `..` or starts with `/` is skipped (logged) without being written
and without aborting the attempt — the loop still proceeds to the normal
build retry — and every other entry is written with its parent directory
created; the fix route's `writeFixedFiles`, by contrast, performs one write
for every entry it is given, resolving the path against the plugin
directory with no validation. -/
theorem suspicious_patch_paths (data : List (String × String)) :
    (∀ pc ∈ data, isSuspiciousPath pc.1 = true →
      pc.1 ∈ (applyFixedFiles data).2 ∧ pc.1 ∉ (applyFixedFiles data).1.map Prod.fst) ∧
    (∀ pc ∈ data, isSuspiciousPath pc.1 = false → pc ∈ (applyFixedFiles data).1) ∧
    (∀ (env : ScriptEnv) (fuel attempt : Nat),
      env.fixResp (attempt + 1) = FixResp.ok data → data.length ≠ 0 →
      ScriptAction.normalBuild (attempt + 1) ∈ (aiFixLoop env (fuel + 1) attempt).trace) ∧
    (∀ dir : String, (writeFixedFiles data dir).length = data.length) := by
  obtain ⟨h1, h2, h3⟩ := applyFixedFiles_spec data
  refine ⟨?_, h2, ?_, ?_⟩
  · intro pc hpc hs
    refine ⟨h1 pc hpc hs, ?_⟩
    intro hmem
    obtain ⟨q, hq, hq1⟩ := List.mem_map.mp hmem
    have hqs := h3 q hq
    rw [hq1, hs] at hqs
    cases hqs
  · exact fun env fuel attempt h hd => aiFixLoop_normalBuild_mem env fuel attempt data h hd
  · intro dir
    simp [writeFixedFiles]

/-- C3 counterexample: `writeFixedFiles` does not drop a traversal path —
the entry `../evil.txt` is written (to a location outside the plugin
directory) rather than rejected. -/
theorem traversal_path_written_cex :
    writeFixedFiles [("../evil.txt", "boom")] "/plugins/p" =
      [("/plugins/evil.txt", "boom")] ∧
    writeFixedFiles [("../evil.txt", "boom")] "/plugins/p" ≠ [] := by
  exact ⟨by decide, by decide⟩

/-- C3 witness: on a concrete patch map the suspicious entry is skipped
and not written, the clean entry is written, and `writeFixedFiles` writes
both entries. -/
theorem suspicious_patch_paths_w :
    ("../e" ∈ (applyFixedFiles [("../e", "x"), ("A.java", "y")]).2 ∧
      "../e" ∉ (applyFixedFiles [("../e", "x"), ("A.java", "y")]).1.map Prod.fst) ∧
    ("A.java", "y") ∈ (applyFixedFiles [("../e", "x"), ("A.java", "y")]).1 ∧
    (writeFixedFiles [("../e", "x"), ("A.java", "y")] "/plugins/p").length = 2 := by
  have h := suspicious_patch_paths [("../e", "x"), ("A.java", "y")]
  refine ⟨h.1 ("../e", "x") (by decide) (by decide),
    h.2.1 ("A.java", "y") (by decide) (by decide), ?_⟩
  exact (h.2.2.2 "/plugins/p").trans (by decide)

/-- C7 amended: a subscriber that connects after `t1` receives, in order,
the connected frame, then the replay of exactly the durable log's
non-blank lines as of the connect (lines broadcast without a durable
append are not replayed), then every line broadcast for the plugin while
it stays connected; the live suffix `broadcastLines p t2` depends only on
the plugin and the subsequent events, so all subscribers connected
throughout `t2` receive the same lines in the same order. -/
theorem log_replay_then_live (t1 t2 : List BEvent) (p : String) (s : Nat)
    (hfresh : ∀ q : String, s ∉ subsOf (logRun t1 initBroadcast) q)
    (hun : untouched s t2 = true) :
    (logRun t2 (logStep (logRun t1 initBroadcast) (BEvent.connect p s))).received s =
      (logRun t1 initBroadcast).received s ++ [Payload.connected] ++
        replayOf (logRun t1 initBroadcast) p ++ (broadcastLines p t2).map Payload.msg := by
  have hnd : ((logRun t1 initBroadcast).subs.map Prod.fst).Nodup :=
    logRun_nodupKeys t1 initBroadcast (by simp [initBroadcast])
  set σ1 := logRun t1 initBroadcast with hσ1
  have hrec2 : (logStep σ1 (BEvent.connect p s)).received s =
      σ1.received s ++ [Payload.connected] ++ replayOf σ1 p := by
    show (if s = s then σ1.received s ++ [Payload.connected] ++ replayOf σ1 p
      else σ1.received s) = _
    rw [if_pos rfl]
  have hI2 : subscribedOnly (logStep σ1 (BEvent.connect p s)) p s := by
    refine ⟨?_, ?_, ?_⟩
    · show s ∈ ((updateAssoc σ1.subs p
        (if s ∈ (σ1.subs.lookup p).getD [] then (σ1.subs.lookup p).getD []
         else (σ1.subs.lookup p).getD [] ++ [s])).lookup p).getD []
      rw [lookup_updateAssoc_self]
      by_cases hm : s ∈ (σ1.subs.lookup p).getD []
      · simp only [hm, if_true, Option.getD_some]
      · simp [hm]
    · intro q hq
      show s ∉ ((updateAssoc σ1.subs p _).lookup q).getD []
      rw [lookup_updateAssoc_ne _ _ _ _ hq]
      exact hfresh q
    · exact nodupKeys_updateAssoc _ _ _ hnd
  rw [logRun_subscribed p s t2 _ hI2 hun, hrec2]

/-- C7 witness: a fresh subscriber connecting to an empty history receives
the connected frame, the (empty) replay, and then the durable line
broadcast after the connect. -/
theorem log_replay_then_live_w :
    (logRun [BEvent.durable "p" "d2"]
      (logStep (logRun ([] : List BEvent) initBroadcast)
        (BEvent.connect "p" 1))).received 1 =
      (logRun ([] : List BEvent) initBroadcast).received 1 ++ [Payload.connected] ++
        replayOf (logRun ([] : List BEvent) initBroadcast) "p" ++
        (broadcastLines "p" [BEvent.durable "p" "d2"]).map Payload.msg :=
  log_replay_then_live [] [BEvent.durable "p" "d2"] "p" 1
    (by
      intro q h
      simp [subsOf, logRun, initBroadcast, List.lookup] at h)
    (by decide)

/-- C7 counterexample: a line broadcast without a durable append (as
`build.ts` does for its own notices) reaches the already-connected
subscriber 0 but is not replayed to subscriber 1, who connects later —
so not every line published before a connection is replayed. -/
theorem log_missing_replay_cex :
    (logRun [BEvent.connect "p" 0, BEvent.live "p" "m", BEvent.connect "p" 1]
        initBroadcast).received 0 = [Payload.connected, Payload.msg "m"] ∧
    (logRun [BEvent.connect "p" 0, BEvent.live "p" "m", BEvent.connect "p" 1]
        initBroadcast).received 1 = [Payload.connected] := by
  constructor <;> rfl

/-- C9: every key of the patch set returned by the fix route is a key of
the request's file map, ends in `.java`, `pom.xml` or `plugin.yml`, and —
when the parsed errors hold nothing for its basename — is only present
because it ends in `pom.xml`; files of any other type are never patched. -/
theorem fixRoute_patch_keys (oracle : String → String → Option String)
    (be : JsValue) (files : List (String × String)) :
    ∀ k ∈ (fixRoutePatchSet oracle be files).map Prod.fst,
      k ∈ files.map Prod.fst ∧
      (jsEndsWith ".java".data k.data || jsEndsWith "pom.xml".data k.data ||
        jsEndsWith "plugin.yml".data k.data) = true ∧
      (((parseErrorsChecked be).fileErrors.lookup (String.mk (jsBasename k.data))).getD []
          = [] → jsEndsWith "pom.xml".data k.data = true) :=
  fixLoopFiles_keys oracle (parseErrorsChecked be) files

/-- C9 witness: with one parsed error for `A.java`, the key `src/A.java`
of a concrete patch set is found in the request map, has an allowed
suffix, and carries errors under its basename. -/
theorem fixRoute_patch_keys_w :
    "src/A.java" ∈ [("src/A.java", "c"), ("readme.md", "r")].map Prod.fst ∧
    (jsEndsWith ".java".data "src/A.java".data ||
      jsEndsWith "pom.xml".data "src/A.java".data ||
      jsEndsWith "plugin.yml".data "src/A.java".data) = true ∧
    (((parseErrorsChecked (JsValue.str "[ERROR] A.java:[1] bad")).fileErrors.lookup
        (String.mk (jsBasename "src/A.java".data))).getD [] = [] →
      jsEndsWith "pom.xml".data "src/A.java".data = true) :=
  fixRoute_patch_keys (fun _ _ => some "fixed") (JsValue.str "[ERROR] A.java:[1] bad")
    [("src/A.java", "c"), ("readme.md", "r")] "src/A.java" (by decide)

/-- C10: in every reachable registry state each registered plugin maps to
a non-empty subscriber list (the entry is removed when the last subscriber
disconnects), and broadcasting to a plugin with no registry entry leaves
the state unchanged — a total no-op, so it cannot throw. -/
theorem registry_nonempty_and_silent_publish :
    (∀ es : List BEvent, ∀ pl ∈ (logRun es initBroadcast).subs, pl.2 ≠ []) ∧
    (∀ (σ : BroadcastState) (p line : String), σ.subs.lookup p = none →
      broadcastLogMessage σ p line = σ) := by
  constructor
  · have key : ∀ (es : List BEvent) (σ : BroadcastState), (∀ pl ∈ σ.subs, pl.2 ≠ []) →
        ∀ pl ∈ (logRun es σ).subs, pl.2 ≠ [] := by
      intro es
      induction es with
      | nil => intro σ h; exact h
      | cons e t ih => intro σ h; exact ih _ (logStep_entries_nonempty σ e h)
    intro es
    refine key es initBroadcast ?_
    intro pl hpl
    cases hpl
  · intro σ p line h
    unfold broadcastLogMessage
    rw [h]

/-- C10 witness: the singleton registry after one connect has a non-empty
entry, and broadcasting on the empty registry is the identity. -/
theorem registry_nonempty_and_silent_publish_w :
    (("p", [1]) : String × List Nat).2 ≠ [] ∧
    broadcastLogMessage initBroadcast "p" "m" = initBroadcast := by
  constructor
  · exact registry_nonempty_and_silent_publish.1 [BEvent.connect "p" 1] ("p", [1]) (by decide)
  · exact registry_nonempty_and_silent_publish.2 initBroadcast "p" "m" rfl

end GeminiApi
